import Mathlib

/-!
Shallow embedding of the predictive-edge pipeline of the nfl-model repository:
leakage-safe rolling features, the Elo-style rating model, the ridge margin
model, odds normalization and Kelly stake sizing.

Conventions of the embedding:
- Python floats are modelled by ℚ where the code only uses field arithmetic,
  and by ℝ where the code uses real exponentiation (10 ** x).
- Python None and float NaN are both modelled by none : Option ℚ; the code
  under study treats them identically (pd.isna catches both).
- Code that can raise (division by zero in Python) returns none.
-/

namespace NflModel

open Matrix

/-- Mean over the non-null entries of a window, none when every entry is null
(pandas mean with skipna; the rolling and expanding calls in the embedded
code all use a minimum period of one non-null observation). -/
def meanOpt (l : List (Option ℚ)) : Option ℚ :=
  match l.filterMap id with
  | [] => none
  | v :: vs => some ((v :: vs).sum / (((v :: vs).length : ℚ)))

/-- Window of the at most w rows strictly before position k of a column. -/
def rollWindow (w k : ℕ) (xs : List (Option ℚ)) : List (Option ℚ) :=
  (xs.take k).drop (k - w)

/-- Trailing-window rollup value attached at chronological position k of a
team column: the mean of the previous w values, current row excluded.  This
embeds the shift-then-roll of features.py (col.shift().rolling(5,
min periods 1).mean()) and equally the roll-then-shift of modeling.py
(col.rolling(N, min periods 1).mean().shift(1)): both read exactly the
window of w rows strictly before k. -/
def rollAt (w : ℕ) (xs : List (Option ℚ)) (k : ℕ) : Option ℚ :=
  meanOpt (rollWindow w k xs)

/-- Season-to-date (expanding) rollup value attached at position k: the mean
of all values strictly before k (col.shift().expanding(min periods
1).mean() in features.py). -/
def expandAt (xs : List (Option ℚ)) (k : ℕ) : Option ℚ :=
  meanOpt (xs.take k)

/-- Per-team rollup column over one season: the trailing mean attached at
every chronological position of the team's metric column (features._roll
applied to one team-season group whose games all have the metric). -/
def team_rollups (w : ℕ) (vals : List ℚ) : List (Option ℚ) :=
  (List.range vals.length).map (fun k => rollAt w (vals.map some) k)

/-- All non-null entries of a season's rollup column across every team: the
values that the season-wide mean of features._fill_with_league_means
averages (transform of mean with skipna over the season group). -/
def league_vals (w : ℕ) (teams : List (List ℚ)) : List ℚ :=
  ((teams.map (team_rollups w)).flatten).filterMap id

/-- Season-wide mean of a rollup column, null when the whole column is null
(a mean with skipna of an all-NaN series is NaN). -/
def league_mean (w : ℕ) (teams : List (List ℚ)) : Option ℚ :=
  match league_vals w teams with
  | [] => none
  | v :: vs => some ((v :: vs).sum / (((v :: vs).length : ℚ)))

/-- One team's rollup column after features._fill_with_league_means: null
entries are filled with the season-wide mean of the column; when that mean
is itself null (no team in the season has any prior history) the entry
stays null, since fillna with NaN changes nothing. -/
def fill_league (w : ℕ) (teams : List (List ℚ)) (vals : List ℚ) : List (Option ℚ) :=
  (team_rollups w vals).map (fun o =>
    match o with
    | some v => some v
    | none => league_mean w teams)

/-- Elo expectation with home-field advantage, from modeling._expected_home_prob:
diff = (elo_home + hfa) - elo_away and the probability is
1 / (1 + 10 ** (-diff / 400)). -/
noncomputable def expected_home_prob (elo_home elo_away hfa : ℝ) : ℝ :=
  1 / (1 + (10 : ℝ) ^ (-((elo_home + hfa) - elo_away) / 400))

/-- Elo update from modeling._update_elo: delta for the home side is
k * (outcome - expected home probability), the away side moves by the exact
negation, and each rating is incremented by its delta. -/
noncomputable def update_elo (elo_home elo_away : ℝ) (home_win : Bool) (k hfa : ℝ) :
    ℝ × ℝ :=
  let ph := expected_home_prob elo_home elo_away hfa
  let delta_home := k * ((if home_win then (1 : ℝ) else 0) - ph)
  let delta_away := -delta_home
  (elo_home + delta_home, elo_away + delta_away)

/-- American odds to implied probability, from odds.american_to_prob and the
identical fetch_and_build.american_to_prob (streamlit_app.american_to_prob
splits on the same strict comparison): a null (None or NaN) price yields
none; a positive price o yields 100 / (o + 100); otherwise -o / (-o + 100). -/
def american_to_prob (odds : Option ℚ) : Option ℚ :=
  match odds with
  | none => none
  | some o => if 0 < o then some (100 / (o + 100)) else some ((-o) / ((-o) + 100))

/-- Proportional vig removal from fetch_and_build.remove_vig_pair: nulls when
either input is null or the sum is nonpositive, otherwise each raw
probability divided by the sum. -/
def remove_vig_pair (p_home_raw p_away_raw : Option ℚ) : Option ℚ × Option ℚ :=
  match p_home_raw, p_away_raw with
  | some a, some b =>
      if a + b ≤ 0 then (none, none)
      else (some (a / (a + b)), some (b / (a + b)))
  | _, _ => (none, none)

/-- Proportional vig removal from streamlit_app.remove_vig: the sum series
replaces an exact zero by NaN before dividing, so a zero sum yields nulls
(and a null input propagates through the float arithmetic to null), while
any nonzero sum is divided through. -/
def remove_vig (p_home p_away : Option ℚ) : Option ℚ × Option ℚ :=
  match p_home, p_away with
  | some a, some b =>
      if a + b = 0 then (none, none)
      else (some (a / (a + b)), some (b / (a + b)))
  | _, _ => (none, none)

/-- Kelly stake fraction from pipeline._kelly_fraction.  A null (None or NaN)
probability or price returns a stake of zero.  Otherwise the price is turned
into net decimal odds b (price / 100 when the price is nonnegative, else
100 / (-price)), f = (p * (b + 1) - 1) / b, and the result is zero when
f is nonpositive and min f cap otherwise.  When the price is exactly zero,
b is zero and the Python division raises ZeroDivisionError, modelled by
none. -/
def kelly_fraction (p : Option ℚ) (american_odds : Option ℚ) (cap : ℚ) : Option ℚ :=
  match p, american_odds with
  | some pv, some ml =>
      let b := if 0 ≤ ml then ml / 100 else 100 / (-ml)
      if b = 0 then none
      else
        let f := (pv * (b + 1) - 1) / b
        some (if f ≤ 0 then 0 else min f cap)
  | _, _ => some 0

/-- Prediction row of modeling.train_elo_and_predict: the home model
probability is the Elo expectation of the two looked-up ratings and the away
model probability is assigned as 1.0 minus the home column. -/
noncomputable def train_elo_predict_probs (elo_home elo_away hfa : ℝ) : ℝ × ℝ :=
  (expected_home_prob elo_home elo_away hfa, 1 - expected_home_prob elo_home elo_away hfa)

/-- Model probability columns written by pipeline.build_pick_sheet from the
classifier output p_home: the away column is assigned as 1.0 - p_home. -/
def build_pick_sheet_probs (p_home : ℝ) : ℝ × ℝ :=
  (p_home, 1 - p_home)

/-- Model probability columns of build_model_outputs: the home probability is
the logistic transform 1 / (1 + 10 ** (ml / 400)) of the home moneyline
(null for a null price) and the away column is 1 minus the home column,
with null propagating through the subtraction. -/
noncomputable def build_model_outputs_probs (home_ml : Option ℝ) : Option ℝ × Option ℝ :=
  let h := home_ml.map (fun x => 1 / (1 + (10 : ℝ) ^ (x / 400)))
  (h, h.map (fun pr => 1 - pr))

/-- Ridge fit from modeling._fit_ridge: A = Xᵀ X + alpha I on the supplied
feature matrix (no column of ones is added), b = Xᵀ y, and w solves A w = b
by np.linalg.solve, which raises LinAlgError on a singular A (none here) and
otherwise returns the unique solution, written here through the adjugate.
The residual spread part of the source is not modelled (it needs a real
square root and does not bear on the solved weights). -/
def fit_ridge {n p : ℕ} (X : Matrix (Fin n) (Fin p) ℚ) (y : Fin n → ℚ) (alpha : ℚ) :
    Option (Fin p → ℚ) :=
  let A := Xᵀ * X + alpha • (1 : Matrix (Fin p) (Fin p) ℚ)
  let b := Xᵀ *ᵥ y
  if A.det = 0 then none else some (A.det⁻¹ • (A.adjugate *ᵥ b))

/-- Matrix X with an explicit column of ones prepended, as the spec words
describe for the bias term of the ridge fit. -/
def prepend_ones {n p : ℕ} (X : Matrix (Fin n) (Fin p) ℚ) :
    Matrix (Fin n) (Fin (p + 1)) ℚ :=
  Matrix.of fun i => Matrix.vecCons 1 (X i)

/-- Ridge fit as the spec describes it (for comparison with the code): the
same normal-equations solve, but on the ones-prepended matrix, so the first
weight is a bias/intercept. -/
def fit_ridge_with_bias {n p : ℕ} (X : Matrix (Fin n) (Fin p) ℚ) (y : Fin n → ℚ)
    (alpha : ℚ) : Option (Fin (p + 1) → ℚ) :=
  fit_ridge (prepend_ones X) y alpha

/-- Concrete one-game, one-feature design matrix used to evaluate the fits. -/
def Xc : Matrix (Fin 1) (Fin 1) ℚ :=
  Matrix.of fun _ _ => 2

/-- Concrete target vector used to evaluate the fits. -/
def yc : Fin 1 → ℚ :=
  fun _ => 4

/-! Theorems -/

/-- Helper: setting an element at or beyond position k leaves the first k
elements unchanged. -/
theorem take_set_of_le {α : Type} (v : α) :
    ∀ (xs : List α) (j k : ℕ), k ≤ j → (xs.set j v).take k = xs.take k := by
  intro xs
  induction xs with
  | nil => intro j k _; rfl
  | cons x t ih =>
    intro j k h
    cases j with
    | zero =>
      have hk : k = 0 := Nat.le_zero.mp h
      subst hk; rfl
    | succ j =>
      cases k with
      | zero => rfl
      | succ k =>
        show x :: (t.set j v).take k = x :: t.take k
        rw [ih j k (Nat.le_of_succ_le_succ h)]

/-- Helper: erasing an element at or beyond position k leaves the first k
elements unchanged. -/
theorem take_eraseIdx_of_le {α : Type} :
    ∀ (xs : List α) (j k : ℕ), k ≤ j → (xs.eraseIdx j).take k = xs.take k := by
  intro xs
  induction xs with
  | nil => intro j k _; rfl
  | cons x t ih =>
    intro j k h
    cases j with
    | zero =>
      have hk : k = 0 := Nat.le_zero.mp h
      subst hk; rfl
    | succ j =>
      cases k with
      | zero => rfl
      | succ k =>
        show x :: (t.eraseIdx j).take k = x :: t.take k
        rw [ih j k (Nat.le_of_succ_le_succ h)]

/-- Helper: the trailing rollup at k reads only the first k rows. -/
theorem rollAt_congr_take (w k : ℕ) (xs ys : List (Option ℚ))
    (h : xs.take k = ys.take k) : rollAt w xs k = rollAt w ys k := by
  unfold rollAt rollWindow
  rw [h]

/-- Helper: the expanding rollup at k reads only the first k rows. -/
theorem expandAt_congr_take (k : ℕ) (xs ys : List (Option ℚ))
    (h : xs.take k = ys.take k) : expandAt xs k = expandAt ys k := by
  unfold expandAt
  rw [h]

/-- C1: no-leakage invariant of the rollup computation.  The trailing-window
and season-to-date value attached at chronological position k is a function
only of the rows at positions strictly below k: mutating or removing any row
at a position above k leaves it unchanged, and any two columns agreeing
below k agree at k. -/
theorem C1_no_leakage (w k j : ℕ) (xs : List (Option ℚ)) (v : Option ℚ)
    (hkj : k < j) :
    (rollAt w (xs.set j v) k = rollAt w xs k ∧
      expandAt (xs.set j v) k = expandAt xs k) ∧
    (rollAt w (xs.eraseIdx j) k = rollAt w xs k ∧
      expandAt (xs.eraseIdx j) k = expandAt xs k) ∧
    (∀ ys : List (Option ℚ), xs.take k = ys.take k →
      rollAt w xs k = rollAt w ys k ∧ expandAt xs k = expandAt ys k) := by
  have hset : (xs.set j v).take k = xs.take k :=
    take_set_of_le v xs j k (Nat.le_of_lt hkj)
  have herase : (xs.eraseIdx j).take k = xs.take k :=
    take_eraseIdx_of_le xs j k (Nat.le_of_lt hkj)
  refine ⟨⟨rollAt_congr_take w k _ _ hset, expandAt_congr_take k _ _ hset⟩,
    ⟨rollAt_congr_take w k _ _ herase, expandAt_congr_take k _ _ herase⟩,
    fun ys hys => ⟨rollAt_congr_take w k _ _ hys, expandAt_congr_take k _ _ hys⟩⟩

/-- Witness for C1 at a concrete column: mutating position 2 does not change
the trailing rollup at position 1, whose value evaluates to the single prior
row. -/
theorem C1_no_leakage_witness :
    rollAt 5 ([some 3, some 5, some 100].set 2 (some 0)) 1 =
      rollAt 5 [some 3, some 5, some 100] 1 ∧
    rollAt 5 [some 3, some 5, some 100] 1 = some 3 :=
  ⟨(C1_no_leakage 5 1 2 [some 3, some 5, some 100] (some 0) (by decide)).1.1,
    by norm_num [rollAt, rollWindow, meanOpt, List.filterMap_cons, List.filterMap_nil]⟩

/-- C2 (amended): Kelly stake bound.  For every probability in the unit
interval, every nonzero American price and every nonnegative cap, the
pipeline Kelly sizing converts the price to net decimal odds b (price / 100
for a nonnegative price, else 100 / (-price)), computes
f = (prob * (b + 1) - 1) / b, and returns f clipped to the interval
[0, cap]; in particular the stake is between 0 and cap and a nonpositive
edge stakes zero.  The price 0 must be excluded: the code divides by b = 0
there and raises. -/
theorem C2_kelly_bound (prob price cap : ℚ) (hp0 : 0 ≤ prob) (hp1 : prob ≤ 1)
    (hprice : price ≠ 0) (hcap : 0 ≤ cap) :
    ∃ r : ℚ,
      kelly_fraction (some prob) (some price) cap = some r ∧
      r = min (max ((prob * ((if 0 ≤ price then price / 100 else 100 / (-price)) + 1) - 1)
            / (if 0 ≤ price then price / 100 else 100 / (-price))) 0) cap ∧
      0 ≤ r ∧ r ≤ cap := by
  have hbpos : 0 < (if 0 ≤ price then price / 100 else 100 / (-price)) := by
    by_cases h : 0 ≤ price
    · rw [if_pos h]
      have hp : 0 < price := lt_of_le_of_ne h (Ne.symm hprice)
      positivity
    · rw [if_neg h]
      have hp : 0 < -price := by
        have := not_le.mp h
        linarith
      positivity
  generalize hbdef : (if 0 ≤ price then price / 100 else 100 / (-price)) = b at hbpos ⊢
  have hbne : b ≠ 0 := ne_of_gt hbpos
  refine ⟨min (max ((prob * (b + 1) - 1) / b) 0) cap, ?_, rfl, ?_, ?_⟩
  · simp only [kelly_fraction]
    rw [hbdef, if_neg hbne]
    congr 1
    by_cases hf : (prob * (b + 1) - 1) / b ≤ 0
    · rw [if_pos hf, max_eq_right hf, min_eq_left hcap]
    · rw [if_neg hf]
      push_neg at hf
      rw [max_eq_left (le_of_lt hf)]
  · exact le_min (le_max_right _ _) hcap
  · exact min_le_right _ _

/-- Witness for C2 at probability 3/5, price +130, cap 1/20: the raw Kelly
fraction 19/65 exceeds the cap and the returned stake is the cap. -/
theorem C2_kelly_bound_witness :
    kelly_fraction (some (3 / 5)) (some 130) (1 / 20) = some (1 / 20) := by
  obtain ⟨r, hr, hval, h0, hc⟩ :=
    C2_kelly_bound (3 / 5) 130 (1 / 20) (by norm_num) (by norm_num) (by norm_num)
      (by norm_num)
  rw [hr, hval]
  norm_num [max_def, min_def]

/-- Counterexample for C2 as stated: the claim quantifies over every American
price, but at the price 0 the net odds b are 0 and the code raises
ZeroDivisionError instead of returning a stake clipped to [0, cap]. -/
theorem C2_kelly_counterexample :
    kelly_fraction (some (3 / 5)) (some 0) (1 / 20) = none := by
  norm_num [kelly_fraction]

/-- C3: the Elo update is zero-sum.  For every pair of ratings, every
outcome, every k-factor and every home-field constant, the home gain equals
the away loss exactly. -/
theorem C3_zero_sum (elo_home elo_away k hfa : ℝ) (home_win : Bool) :
    (update_elo elo_home elo_away home_win k hfa).1 - elo_home =
      -((update_elo elo_home elo_away home_win k hfa).2 - elo_away) := by
  simp only [update_elo]
  ring

/-- C4 (amended): American-odds conversion.  A strictly positive price o
maps to 100 / (o + 100), a nonpositive price maps to |o| / (|o| + 100), and
a null price yields a null probability.  (The boundary price 0 falls in the
nonpositive branch of the code and yields 0, not 100 / (0 + 100) = 1.) -/
theorem C4_price_to_prob :
    american_to_prob none = none ∧
    ∀ price : ℚ,
      (0 < price → american_to_prob (some price) = some (100 / (price + 100))) ∧
      (price ≤ 0 →
        american_to_prob (some price) = some (|price| / (|price| + 100))) := by
  refine ⟨rfl, fun price => ⟨fun h => ?_, fun h => ?_⟩⟩
  · simp [american_to_prob, if_pos h]
  · have hn : ¬ 0 < price := not_lt.mpr h
    simp [american_to_prob, hn, abs_of_nonpos h]

/-- Witness for C4: a -150 price converts to 150 / 250 = 3 / 5. -/
theorem C4_price_to_prob_witness :
    american_to_prob (some (-150)) = some (3 / 5) := by
  have h := (C4_price_to_prob.2 (-150)).2 (by norm_num)
  rw [h]
  norm_num

/-- Counterexample for C4 as stated: the claim asserts that every price at or
above zero maps to 100 / (price + 100), but the code maps the price 0 to 0,
while the claimed formula gives 100 / (0 + 100) = 1. -/
theorem C4_price_to_prob_counterexample :
    american_to_prob (some 0) = some 0 ∧ (100 / ((0 : ℚ) + 100)) = 1 := by
  constructor
  · norm_num [american_to_prob]
  · norm_num

/-- C5: vig removal.  remove_vig_pair returns nulls exactly when an input is
null or the sum is nonpositive, and otherwise rescales the pair
proportionally so the fair probabilities sum exactly to one; the
streamlit remove_vig variant agrees on genuine probability inputs in
[0, 1], where a nonpositive sum can only be a zero sum. -/
theorem C5_remove_vig :
    (∀ a b : ℚ, 0 < a + b →
        remove_vig_pair (some a) (some b) = (some (a / (a + b)), some (b / (a + b))) ∧
        a / (a + b) + b / (a + b) = 1) ∧
    (∀ ph pa : Option ℚ,
        remove_vig_pair ph pa = (none, none) ↔
          ph = none ∨ pa = none ∨ ∃ a b : ℚ, ph = some a ∧ pa = some b ∧ a + b ≤ 0) ∧
    (∀ a b : ℚ, 0 ≤ a → a ≤ 1 → 0 ≤ b → b ≤ 1 →
        ((remove_vig (some a) (some b) = (none, none)) ↔ a + b ≤ 0) ∧
        (0 < a + b →
          remove_vig (some a) (some b) =
            (some (a / (a + b)), some (b / (a + b))))) := by
  refine ⟨fun a b hab => ⟨?_, ?_⟩, fun ph pa => ?_,
    fun a b ha0 ha1 hb0 hb1 => ⟨⟨?_, ?_⟩, ?_⟩⟩
  · simp only [remove_vig_pair, if_neg (not_le.mpr hab)]
  · rw [div_add_div_same, div_self (ne_of_gt hab)]
  · cases ph with
    | none => simp [remove_vig_pair]
    | some a =>
      cases pa with
      | none => simp [remove_vig_pair]
      | some b =>
        by_cases hab : a + b ≤ 0
        · simp only [remove_vig_pair, if_pos hab]
          constructor
          · intro _
            exact Or.inr (Or.inr ⟨a, b, rfl, rfl, hab⟩)
          · intro _
            trivial
        · simp only [remove_vig_pair, if_neg hab]
          constructor
          · intro hcontra
            exact absurd (congrArg Prod.fst hcontra) (by simp)
          · intro hor
            rcases hor with h | h | ⟨a0, b0, ha, hb, hab0⟩
            · exact absurd h (by simp)
            · exact absurd h (by simp)
            · obtain rfl := Option.some.inj ha
              obtain rfl := Option.some.inj hb
              exact absurd hab0 hab
  · intro h
    by_contra hgt
    have hne : a + b ≠ 0 := fun h0 => hgt (le_of_eq h0)
    simp only [remove_vig, if_neg hne] at h
    exact absurd (congrArg Prod.fst h) (by simp)
  · intro hle
    have h0 : a + b = 0 := le_antisymm hle (add_nonneg ha0 hb0)
    simp only [remove_vig, if_pos h0]
  · intro hab
    simp only [remove_vig, if_neg (ne_of_gt hab)]

/-- Witness for C5 at the raw probabilities 3/5 and 9/20 (sum 21/20): the
fair pair is (4/7, 3/7). -/
theorem C5_remove_vig_witness :
    remove_vig_pair (some (3 / 5)) (some (9 / 20)) = (some (4 / 7), some (3 / 7)) := by
  have h := (C5_remove_vig.1 (3 / 5) (9 / 20) (by norm_num)).1
  rw [h]
  norm_num [Prod.ext_iff]

/-- C6: the expected-home-win-probability formula.  For all ratings and
home-field constant the code computes 1 / (1 + 10 ^ (-((rh + hfa - ra) /
400))), and two equal ratings with no home-field advantage give exactly
one half. -/
theorem C6_expected_prob :
    (∀ rating_home rating_away hfa : ℝ,
        expected_home_prob rating_home rating_away hfa =
          1 / (1 + (10 : ℝ) ^ (-((rating_home + hfa - rating_away) / 400)))) ∧
    (∀ r : ℝ, expected_home_prob r r 0 = 1 / 2) := by
  constructor
  · intro rating_home rating_away hfa
    simp only [expected_home_prob, neg_div]
  · intro r
    have hz : -((r + 0) - r) / 400 = (0 : ℝ) := by ring
    simp only [expected_home_prob, hz, Real.rpow_zero]
    norm_num

/-- Helper: there is no prior history at chronological position 0, so the
trailing rollup there is null. -/
theorem rollAt_zero (w : ℕ) (xs : List (Option ℚ)) : rollAt w xs 0 = none := by
  simp [rollAt, rollWindow, meanOpt]

/-- C7 (amended): first-game fallback.  For a team with no prior history
(chronological position 0 in a season) the filled rollup value equals the
season-wide cross-team mean of the rollup column over its non-null entries,
and that value is non-null whenever at least one team-row of the season
carries a non-null rollup value.  When no row does (for instance when every
team is playing its first game), the filled value remains null, and nothing
prevents the league mean itself from being zero. -/
theorem C7_first_game_fill (w : ℕ) (teams : List (List ℚ)) (vals : List ℚ)
    (hmem : vals ∈ teams) (hne : vals ≠ []) :
    (fill_league w teams vals).get? 0 = some (league_mean w teams) ∧
    (league_vals w teams ≠ [] → ∃ m : ℚ, league_mean w teams = some m) := by
  constructor
  · obtain ⟨v0, rest, rfl⟩ : ∃ v0 rest, vals = v0 :: rest := by
      cases vals with
      | nil => exact absurd rfl hne
      | cons v0 rest => exact ⟨v0, rest, rfl⟩
    simp [fill_league, team_rollups, List.get?_map, List.get?_range, rollAt_zero]
  · intro hnil
    cases h : league_vals w teams with
    | nil => exact absurd h hnil
    | cons v vs =>
      refine ⟨(v :: vs).sum / ((v :: vs).length : ℚ), ?_⟩
      unfold league_mean
      rw [h]

/-- Witness for C7 on a concrete two-team season whose second games carry
history: the first-game fill of the first team equals the league mean of the
rollup column, which evaluates to 5. -/
theorem C7_first_game_fill_witness :
    (fill_league 5 [[3, 10], [7, 2]] [3, 10]).get? 0 =
      some (league_mean 5 [[3, 10], [7, 2]]) ∧
    league_mean 5 [[3, 10], [7, 2]] = some 5 := by
  refine ⟨(C7_first_game_fill 5 [[3, 10], [7, 2]] [3, 10] (by simp) (by simp)).1, ?_⟩
  have hr2 : List.range 2 = [0, 1] := rfl
  norm_num [league_mean, league_vals, team_rollups, rollAt, rollWindow, meanOpt, hr2,
    List.filterMap_cons, List.filterMap_nil]

/-- Counterexample for C7 as stated: the claim asserts the first-game rollup
value is the league average and in particular neither null nor zero, but in
a season in which every team plays its first game the rollup column is
entirely null, the league mean is null, and the filled value at position 0
stays null. -/
theorem C7_first_game_fill_counterexample :
    (fill_league 5 [[10], [7]] [10]).get? 0 = some none := by
  have hr1 : List.range 1 = [0] := rfl
  norm_num [fill_league, league_mean, league_vals, team_rollups, rollAt, rollWindow,
    meanOpt, hr1, List.filterMap_cons, List.filterMap_nil]

/-- Helper: the ridge normal-equations matrix of the concrete one-feature
design evaluates to the scalar matrix 9. -/
theorem ridge_matrix_Xc :
    Xcᵀ * Xc + (5 : ℚ) • (1 : Matrix (Fin 1) (Fin 1) ℚ) =
      Matrix.of fun (_ : Fin 1) (_ : Fin 1) => (9 : ℚ) := by
  ext i j
  fin_cases i
  fin_cases j
  simp [Xc, Matrix.mul_apply, Fin.sum_univ_one, Matrix.one_apply]
  norm_num

/-- Helper: the code's ridge fit on the concrete design solves
(4 + 5) w = 8, so the single weight is 8/9 and no bias weight exists. -/
theorem fit_ridge_Xc : fit_ridge Xc yc 5 = some (fun _ => 8 / 9) := by
  simp only [fit_ridge]
  rw [ridge_matrix_Xc]
  have hdet : (Matrix.of fun (_ : Fin 1) (_ : Fin 1) => (9 : ℚ)).det = 9 := by
    simp [Matrix.det_fin_one]
  have hadj : (Matrix.of fun (_ : Fin 1) (_ : Fin 1) => (9 : ℚ)).adjugate = 1 :=
    Matrix.adjugate_fin_one _
  rw [hdet, hadj, if_neg (by norm_num : (9 : ℚ) ≠ 0)]
  congr 1
  funext i
  fin_cases i
  simp [Matrix.one_mulVec, Matrix.mulVec, Matrix.dotProduct, Fin.sum_univ_one,
    Matrix.transpose_apply, Xc, yc]
  norm_num

/-- Helper: the spec-worded ridge fit with a prepended ones column on the
same concrete input gives bias 2/5 and feature weight 4/5. -/
theorem fit_ridge_bias_Xc : fit_ridge_with_bias Xc yc 5 = some ![2 / 5, 4 / 5] := by
  unfold fit_ridge_with_bias
  simp only [fit_ridge]
  have hA : (prepend_ones Xc)ᵀ * prepend_ones Xc +
      (5 : ℚ) • (1 : Matrix (Fin 2) (Fin 2) ℚ) = !![6, 2; 2, 9] := by
    ext i j
    fin_cases i <;> fin_cases j <;>
      simp [prepend_ones, Xc, Matrix.mul_apply, Fin.sum_univ_one, Matrix.one_apply,
        Matrix.vecHead, Matrix.cons_val_zero, Matrix.cons_val_one, Matrix.of_apply] <;>
      norm_num
  have hb : (prepend_ones Xc)ᵀ *ᵥ yc = ![4, 8] := by
    funext i
    fin_cases i <;>
      simp [prepend_ones, Xc, yc, Matrix.mulVec, Matrix.dotProduct, Fin.sum_univ_one,
        Matrix.transpose_apply, Matrix.of_apply, Matrix.cons_val_zero,
        Matrix.cons_val_one, Matrix.vecHead] <;>
      norm_num
  rw [hA, hb]
  have hdet : (!![6, 2; 2, 9] : Matrix (Fin 2) (Fin 2) ℚ).det = 50 := by
    simp [Matrix.det_fin_two]
    norm_num
  have hadj : (!![6, 2; 2, 9] : Matrix (Fin 2) (Fin 2) ℚ).adjugate = !![9, -2; -2, 6] := by
    rw [Matrix.adjugate_fin_two]
    norm_num
  rw [hdet, hadj, if_neg (by norm_num : (50 : ℚ) ≠ 0)]
  have hAb : (!![9, -2; -2, 6] : Matrix (Fin 2) (Fin 2) ℚ) *ᵥ ![4, 8] = ![20, 40] := by
    funext i
    fin_cases i <;>
      simp [Matrix.mulVec, Matrix.dotProduct, Fin.sum_univ_two, Matrix.cons_val_zero,
        Matrix.cons_val_one, Matrix.vecHead, Matrix.vecTail] <;>
      norm_num
  rw [hAb]
  congr 1
  funext i
  fin_cases i <;>
    simp [Pi.smul_apply, smul_eq_mul, Matrix.cons_val_zero, Matrix.cons_val_one,
      Matrix.vecHead] <;>
    norm_num

/-- C8 (amended): the ridge fit solves the normal equations
(Xᵀ X + alpha I) w = Xᵀ y (ordinary least squares when alpha = 0) on the
feature matrix exactly as supplied: the weight vector has one weight per
feature column and no column of ones is prepended, so no bias/intercept term
is produced. -/
theorem C8_ridge_normal_equations {n p : ℕ} (X : Matrix (Fin n) (Fin p) ℚ)
    (y : Fin n → ℚ) (alpha : ℚ) (w : Fin p → ℚ)
    (h : fit_ridge X y alpha = some w) :
    (Xᵀ * X + alpha • (1 : Matrix (Fin p) (Fin p) ℚ)) *ᵥ w = Xᵀ *ᵥ y := by
  simp only [fit_ridge] at h
  set A := Xᵀ * X + alpha • (1 : Matrix (Fin p) (Fin p) ℚ) with hA
  by_cases hdet : A.det = 0
  · rw [if_pos hdet] at h
    exact absurd h (by simp)
  · rw [if_neg hdet] at h
    have hw := Option.some.inj h
    rw [← hw, Matrix.mulVec_smul, Matrix.mulVec_mulVec, Matrix.mul_adjugate,
      Matrix.smul_mulVec_assoc, Matrix.one_mulVec, smul_smul,
      inv_mul_cancel₀ hdet, one_smul]

/-- Witness for C8: the concrete solved weight 8/9 satisfies the concrete
normal equations. -/
theorem C8_ridge_normal_equations_witness :
    (Xcᵀ * Xc + (5 : ℚ) • (1 : Matrix (Fin 1) (Fin 1) ℚ)) *ᵥ (fun _ => 8 / 9) =
      Xcᵀ *ᵥ yc :=
  C8_ridge_normal_equations Xc yc 5 (fun _ => 8 / 9) fit_ridge_Xc

/-- Counterexample for C8 as stated: the claim says the solved weight vector
includes a bias obtained by prepending a column of ones to X.  On the
concrete design the code returns the single weight 8/9 (one weight per
supplied feature, no bias slot), while the ones-prepended solve of the
claim returns bias 2/5 and feature weight 4/5; the feature weights differ,
so the code does not perform the claimed computation. -/
theorem C8_ridge_counterexample :
    fit_ridge Xc yc 5 = some (fun _ => 8 / 9) ∧
    fit_ridge_with_bias Xc yc 5 = some ![2 / 5, 4 / 5] ∧
    ((8 : ℚ) / 9) ≠ 4 / 5 :=
  ⟨fit_ridge_Xc, fit_ridge_bias_Xc, by norm_num⟩

/-- C9: complementarity of the emitted model probabilities in all three
prediction steps.  train_elo_and_predict and build_pick_sheet emit away =
1 - home; build_model_outputs emits away = 1 - home whenever the home
probability is non-null. -/
theorem C9_complementarity :
    (∀ elo_home elo_away hfa : ℝ,
        (train_elo_predict_probs elo_home elo_away hfa).2 =
          1 - (train_elo_predict_probs elo_home elo_away hfa).1) ∧
    (∀ p_home : ℝ,
        (build_pick_sheet_probs p_home).2 = 1 - (build_pick_sheet_probs p_home).1) ∧
    (∀ (home_ml : Option ℝ) (h : ℝ),
        (build_model_outputs_probs home_ml).1 = some h →
        (build_model_outputs_probs home_ml).2 = some (1 - h)) := by
  refine ⟨fun _ _ _ => rfl, fun _ => rfl, fun home_ml h hh => ?_⟩
  cases home_ml with
  | none => simp [build_model_outputs_probs] at hh
  | some x =>
    have hx : some (1 / (1 + (10 : ℝ) ^ (x / 400))) = some h := hh
    have hx2 := Option.some.inj hx
    show some (1 - 1 / (1 + (10 : ℝ) ^ (x / 400))) = some (1 - h)
    rw [hx2]

/-- Witness for C9 at a concrete moneyline of 0: the away model probability
is one minus the home model probability. -/
theorem C9_complementarity_witness :
    (build_model_outputs_probs (some 0)).2 =
      some (1 - 1 / (1 + (10 : ℝ) ^ ((0 : ℝ) / 400))) :=
  C9_complementarity.2.2 (some 0) (1 / (1 + (10 : ℝ) ^ ((0 : ℝ) / 400))) rfl

/-- C10: null-input behavior of the Kelly sizing.  A null (None or NaN)
probability or price makes pipeline._kelly_fraction return the stake 0.0
rather than a null or an error. -/
theorem C10_kelly_null (p ml : Option ℚ) (cap : ℚ) (h : p = none ∨ ml = none) :
    kelly_fraction p ml cap = some 0 := by
  rcases h with h | h
  · subst h; rfl
  · subst h; cases p <;> rfl

/-- Witness for C10: a null probability with a live price stakes zero. -/
theorem C10_kelly_null_witness :
    kelly_fraction none (some 110) (1 / 20) = some 0 :=
  C10_kelly_null none (some 110) (1 / 20) (Or.inl rfl)

end NflModel
